import Mathlib

/-!
Verification of the document version-history and selection-to-source-offset
mapping engine of the Notovo repository.

The definitions below are shallow embeddings of the TypeScript source:

* `scanAux` / `createPositionMap` — the Markdown-marker stripping scan of
  `createPositionMap` in `src/components/ChatSection.tsx` (also duplicated in
  the unnamed DocRender component).
* `computeOffsets` — the offset computation of `handleMouseUp` in the same
  file (exact match, whitespace-normalised match, raw-substring fallback,
  first-word fallback, zero default).
* `createMajorVersion`, `applyMinorEdit`, `applyContentEdit`,
  `addBlocksToCurrentVersion`, `replaceBlocks`, `undo`, `redo`,
  `clearVersions`, `initVersionHistory` — the state transitions of
  `src/hooks/useVersionHistory.ts`.
* `getBlocksHash`, `createVersion`, `handleSwitchToVersion`, `handleUndo`,
  `handleRedo` — the persistence-backed engine of the unnamed split-screen
  component (`src/unnamed/part_007`).
* `applyEdit` — the edit applicator of `ChatSection.tsx` / `part_007`'s chat
  component; the returned `Bool` records whether `clearSelection()` was
  triggered.

Strings are modelled as `List Char` (JS strings; the sources only ever index
by UTF-16 code unit and all relevant content is in the BMP, where code units
and code points coincide).  JS `Date.now()` and generated ids are passed in
as explicit parameters.  Asynchronous persistence results (`checkVersionExists`,
`saveDocumentVersion`) are passed in as boolean parameters.
-/

/-- The backquote character, written by code to keep the file free of a bare
backquote character literal. -/
def backquote : Char := Char.ofNat 96

/-- JS `markdown.indexOf(marker, i+1) !== -1 && closeIdx < markdown.indexOf(' ', i+1)`
from `createPositionMap`, expressed on the remainder `cs` of the string after
position `i`: both `indexOf` calls search forward from `i+1`, so the comparison
of absolute indices equals the comparison of indices within `cs`.  When no
space occurs after `i` the JS right-hand side is `-1` and the conjunction is
false, matching the `| _, _ => false` arm. -/
def closeCond (marker : Char) (cs : List Char) : Bool :=
  match cs.findIdx? (· == marker), cs.findIdx? (· == ' ') with
  | some kc, some ks => kc < ks
  | _, _ => false

/-- The stripping scan of `createPositionMap` (ChatSection.tsx): first
component is the `stripped` buffer, second is the `map` array
(`map[strippedIndex] = originalIndex`).  `i` is the current original index.
`**` and `__` are skipped as 2-character units; a single `*` or `_` is skipped
when followed by a non-space character and `closeCond` holds; a backquote is
skipped unconditionally; every other character is copied with its original
index recorded. -/
def scanAux : Nat → List Char → List Char × List Nat
  | _, [] => ([], [])
  | i, [c] => if c = backquote then ([], []) else ([c], [i])
  | i, c :: c₂ :: rest =>
    if (c = '*' ∧ c₂ = '*') ∨ (c = '_' ∧ c₂ = '_') then
      scanAux (i + 2) rest
    else if (c = '*' ∨ c = '_') ∧ c₂ ≠ ' ' ∧ closeCond c (c₂ :: rest) then
      scanAux (i + 1) (c₂ :: rest)
    else if c = backquote then
      scanAux (i + 1) (c₂ :: rest)
    else
      let (s, m) := scanAux (i + 1) (c₂ :: rest)
      (c :: s, i :: m)

/-- `createPositionMap(markdown)` of ChatSection.tsx: the scan started at
original index 0. -/
def createPositionMap (markdown : List Char) : List Char × List Nat :=
  scanAux 0 markdown

/-- `pat` occurs at position 0 of `hay` (character-wise comparison, as in the
JS `indexOf` character scan). -/
def leadsWith : List Char → List Char → Bool
  | [], _ => true
  | _ :: _, [] => false
  | p :: ps, h :: hs => p == h && leadsWith ps hs

/-- JS `hay.indexOf(pat)` returning `some index` instead of `-1`. -/
def subIdx? : List Char → List Char → Option Nat
  | [], pat => if leadsWith pat [] then some 0 else none
  | h :: t, pat =>
    if leadsWith pat (h :: t) then some 0 else (subIdx? t pat).map (· + 1)

/-- Whitespace class of the JS regex `\s` as used by the sources (the content
handled by the application is plain text; only the four ASCII whitespace
characters are relevant). -/
def jsWs (c : Char) : Bool :=
  c = ' ' || c = '\t' || c = '\n' || c = '\r'

/-- Helper for `normalizeWs`: the boolean records whether we are inside a
whitespace run that has already emitted its single space. -/
def normAux : Bool → List Char → List Char
  | _, [] => []
  | inRun, c :: cs =>
    if jsWs c then
      if inRun then normAux true cs else ' ' :: normAux true cs
    else c :: normAux false cs

/-- JS `s.replace(/\s+/g, ' ')`: collapse each whitespace run to one space. -/
def normalizeWs (l : List Char) : List Char :=
  normAux false l

/-- The fallback branch of the offset computation in `handleMouseUp`
(ChatSection.tsx): direct `indexOf` of the selection in the raw content, then
`indexOf` of its first word (`selectedText.split(' ')[0]`), then `0`; the end
offset is always `startOffset + selectedText.length`. -/
def fallbackOffsets (content selected : List Char) : Nat × Nat :=
  let s₁ :=
    match subIdx? content selected with
    | some j => j
    | none =>
      match subIdx? content (selected.takeWhile (· ≠ ' ')) with
      | some j => j
      | none => 0
  (s₁, s₁ + selected.length)

/-- The offset computation of `handleMouseUp` (ChatSection.tsx): strip the
content, locate the selection in the stripped text (exact, then
whitespace-normalised), map the found index back through the position map
(`map[k] ?? 0`; the end index maps through `map` when in range, otherwise it
is the content length), and otherwise take the fallback branch. -/
def computeOffsets (content selected : List Char) : Nat × Nat :=
  let pm := createPositionMap content
  let p :=
    match subIdx? pm.1 selected with
    | some k => some k
    | none => subIdx? (normalizeWs pm.1) (normalizeWs selected)
  match p with
  | some k =>
    if 0 < pm.2.length then
      let start := pm.2.getD k 0
      let sEnd := min (k + selected.length) pm.2.length
      (start, if sEnd < pm.2.length then pm.2.getD sEnd 0 else content.length)
    else fallbackOffsets content selected
  | none => fallbackOffsets content selected

/-- `content.substring(start, end)` for `start ≤ end`: the slice
`content[start:end]` (this is how `originalMarkdown` is extracted in
`handleMouseUp`). -/
def sliceBetween (content : List Char) (s e : Nat) : List Char :=
  (content.drop s).take (e - s)

/-- Characters kept by the stripping scan on inputs without single-marker
emphasis: everything except `*` and the backquote. -/
def keepChar (ch : Char) : Bool :=
  ch ≠ '*' && ch ≠ backquote

/-- Specification-side rendering of the stripping scan as a positional filter:
first component is the kept characters, second the list of their (0-based)
positions.  Used to reason about the scan on inputs where the single-marker
heuristic never fires. -/
def stripPos : List Char → List Char × List Nat
  | [] => ([], [])
  | ch :: cs =>
    let (s, m) := stripPos cs
    if keepChar ch then (ch :: s, 0 :: m.map (· + 1)) else (s, m.map (· + 1))

/-- Contents whose asterisks all come in adjacent `**` pairs and that contain
no underscore: on such contents the `**`-pair rule and the backquote rule are
the only skipping rules the scan can fire (no single-marker emphasis). -/
def goodB : List Char → Bool
  | [] => true
  | c :: cs =>
    if c = '*' then
      match cs with
      | c₂ :: cs₂ => if c₂ = '*' then goodB cs₂ else false
      | [] => false
    else if c = '_' then false
    else goodB cs

/-- The original index bounding the stripped prefix of length `k`: the
position of the `k`-th kept character, or the content length when the
stripped text has fewer than `k + 1` characters. -/
def bnd (c : List Char) (k : Nat) : Nat :=
  if k < (stripPos c).2.length then (stripPos c).2.getD k 0 else c.length

/-! ## Version Engine (`src/hooks/useVersionHistory.ts`) -/

/-- A content block.  The JS interface also carries an optional opaque
`metadata` record that no operation under verification reads or writes; it is
omitted.  The JS field `type` (always the literal `"paragraph"`) is renamed
`btype` because `type` is reserved in Lean. -/
structure Block where
  id : String
  btype : String
  content : List Char
deriving DecidableEq

/-- `ChangeType = 'MAJOR' | 'MINOR'`. -/
inductive ChangeType where
  | major
  | minor
deriving DecidableEq

/-- `DocumentVersion` of useVersionHistory.ts.  The optional `description`
is modelled as a plain string (every creation site passes one, via a JS
default parameter). -/
structure DocumentVersion where
  id : String
  timestamp : Nat
  blocks : List Block
  changeType : ChangeType
  description : String
deriving DecidableEq

/-- `VersionHistoryState`: the ordered snapshot list and the cursor
(`-1` when empty). -/
structure VersionHistoryState where
  versions : List DocumentVersion
  currentVersionIndex : Int
deriving DecidableEq

/-- `MAX_VERSIONS` (both engines). -/
def MAX_VERSIONS : Nat := 10

/-- `arr.slice(0, e)` for a JS array: a negative `e` counts from the end. -/
def jsSliceTo {α : Type} (l : List α) (e : Int) : List α :=
  if e < 0 then l.take ((l.length + e).toNat) else l.take e.toNat

/-- The retention step `if (newVersions.length > MAX_VERSIONS)
newVersions = newVersions.slice(-MAX_VERSIONS)`. -/
def capTrim {α : Type} (l : List α) : List α :=
  if MAX_VERSIONS < l.length then l.drop (l.length - MAX_VERSIONS) else l

/-- `updatedVersions[i] = f(updatedVersions[i])` on a copied array: replace
the element at `i` when it exists, otherwise leave the list unchanged (the
sources only reach this with a valid index, guarded by the cursor checks). -/
def listModify {α : Type} (l : List α) (i : Nat) (f : α → α) : List α :=
  match l[i]? with
  | some x => l.set i (f x)
  | none => l

/-- The snapshot literal built by the engine's creation sites (id and
timestamp come from `Date.now()`). -/
def mkDocVersion (id : String) (now : Nat) (blocks : List Block) (desc : String) :
    DocumentVersion :=
  ⟨id, now, blocks, ChangeType.major, desc⟩

/-- The `useState` initialiser of `useVersionHistory(initialBlocks)`. -/
def initVersionHistory (initialBlocks : List Block) (id : String) (now : Nat) :
    VersionHistoryState :=
  if initialBlocks.length = 0 then ⟨[], -1⟩
  else ⟨[mkDocVersion id now initialBlocks "Initial version"], 0⟩

/-- `createMajorVersion(newBlocks, description)`: slice off versions after the
cursor, append the new snapshot, trim to `MAX_VERSIONS`, cursor to the last
index. -/
def createMajorVersion (st : VersionHistoryState) (newBlocks : List Block)
    (desc id : String) (now : Nat) : VersionHistoryState :=
  let newVersion := mkDocVersion id now newBlocks desc
  let sliced := jsSliceTo st.versions (st.currentVersionIndex + 1)
  let newVersions := capTrim (sliced ++ [newVersion])
  ⟨newVersions, (newVersions.length : Int) - 1⟩

/-- `applyMinorEdit(blockId, newContent)`: guard on an empty/negative cursor,
then replace the matching block's content in the current snapshot and refresh
its timestamp. -/
def applyMinorEdit (st : VersionHistoryState) (blockId : String)
    (newContent : List Char) (now : Nat) : VersionHistoryState :=
  if st.currentVersionIndex < 0 ∨ st.versions.length = 0 then st
  else
    ⟨listModify st.versions st.currentVersionIndex.toNat fun v =>
      { v with
        blocks := v.blocks.map fun b =>
          if b.id = blockId then { b with content := newContent } else b
        timestamp := now },
     st.currentVersionIndex⟩

/-- The splice `before + newText + after` with
`before = content.substring(0, startOffset)` and
`after = content.substring(endOffset)`. -/
def spliceContent (content : List Char) (startOffset endOffset : Nat)
    (newText : List Char) : List Char :=
  content.take startOffset ++ newText ++ content.drop endOffset

/-- `applyContentEdit(blockId, startOffset, endOffset, newText)`: like
`applyMinorEdit` but replacing only the `[startOffset, endOffset)` slice of
the matching block's content. -/
def applyContentEdit (st : VersionHistoryState) (blockId : String)
    (startOffset endOffset : Nat) (newText : List Char) (now : Nat) :
    VersionHistoryState :=
  if st.currentVersionIndex < 0 ∨ st.versions.length = 0 then st
  else
    ⟨listModify st.versions st.currentVersionIndex.toNat fun v =>
      { v with
        blocks := v.blocks.map fun b =>
          if b.id = blockId then
            { b with content := spliceContent b.content startOffset endOffset newText }
          else b
        timestamp := now },
     st.currentVersionIndex⟩

/-- `undo()`. -/
def undo (st : VersionHistoryState) : VersionHistoryState :=
  if st.currentVersionIndex ≤ 0 then st
  else { st with currentVersionIndex := st.currentVersionIndex - 1 }

/-- `redo()`. -/
def redo (st : VersionHistoryState) : VersionHistoryState :=
  if (st.versions.length : Int) - 1 ≤ st.currentVersionIndex then st
  else { st with currentVersionIndex := st.currentVersionIndex + 1 }

/-- `addBlocksToCurrentVersion(newBlocks, isMajorChange)`: major (or empty
history) path appends the combined blocks as a new capped snapshot; the minor
path appends to the current snapshot in place and refreshes its timestamp. -/
def addBlocksToCurrentVersion (st : VersionHistoryState) (newBlocks : List Block)
    (isMajorChange : Bool) (id : String) (now : Nat) : VersionHistoryState :=
  if isMajorChange ∨ st.versions.length = 0 then
    let currentBlocks :=
      if 0 ≤ st.currentVersionIndex then
        ((st.versions[st.currentVersionIndex.toNat]?).map (·.blocks)).getD []
      else []
    let newVersion := mkDocVersion id now (currentBlocks ++ newBlocks) "Added new content"
    let newVersions := capTrim (jsSliceTo st.versions (st.currentVersionIndex + 1) ++ [newVersion])
    ⟨newVersions, (newVersions.length : Int) - 1⟩
  else
    ⟨listModify st.versions st.currentVersionIndex.toNat fun v =>
      { v with blocks := v.blocks ++ newBlocks, timestamp := now },
     st.currentVersionIndex⟩

/-- `replaceBlocks(newBlocks, description)` delegates to
`createMajorVersion`. -/
def replaceBlocks (st : VersionHistoryState) (newBlocks : List Block)
    (desc id : String) (now : Nat) : VersionHistoryState :=
  createMajorVersion st newBlocks desc id now

/-- `clearVersions()`. -/
def clearVersions (_st : VersionHistoryState) : VersionHistoryState :=
  ⟨[], -1⟩

/-- The cursor invariant of the spec (§3): a valid index whenever non-empty,
`-1` exactly when empty. -/
def cursorInv {α : Type} (versions : List α) (cursor : Int) : Prop :=
  (versions.length = 0 ∨ (0 ≤ cursor ∧ cursor < versions.length)) ∧
    (cursor = -1 ↔ versions.length = 0)

/-! ## Persistence-backed engine (`src/unnamed/part_007`) -/

/-- JS `ToInt32`: wrap an integer into `[-2^31, 2^31)`; the bounds are spelt
as numerals so that proofs can evaluate the hash on concrete input. -/
def toInt32 (n : Int) : Int :=
  (n + 2147483648) % 4294967296 - 2147483648

/-- One step of `getBlocksHash`:
`hash = ((hash << 5) - hash) + charCode; hash = hash & hash`.
`hash << 5` coerces to int32 and shifts (int32 result); the subtraction and
addition are exact in JS doubles; the final `& hash` coerces back to int32. -/
def hashStep (h : Int) (code : Nat) : Int :=
  toInt32 (toInt32 (h * 32) - h + code)

/-- The character fold of `getBlocksHash` over the joined content, starting
from `0`; `charCodeAt` is the UTF-16 code unit, which for the BMP content at
hand equals `Char.toNat`. -/
def hashChars (l : List Char) : Int :=
  l.foldl (fun h ch => hashStep h ch.toNat) 0

/-- Digit characters of JS `Number.prototype.toString(36)`:
`0`–`9` then `a`–`z`. -/
def base36digit (d : Nat) : Char :=
  if d < 10 then Char.ofNat (48 + d) else Char.ofNat (87 + d)

/-- Digit extraction for `toString(36)`; the first argument is fuel (any value
`≥` the digit count, the callers pass `n` itself) making the recursion
structural so that proofs can evaluate it. -/
def base36Aux : Nat → Nat → List Char → List Char
  | 0, _, acc => acc
  | fuel + 1, n, acc =>
    if n = 0 then acc else base36Aux fuel (n / 36) (base36digit (n % 36) :: acc)

/-- JS `n.toString(36)` for a natural number. -/
def natToBase36 (n : Nat) : String :=
  if n = 0 then "0" else String.mk (base36Aux n n [])

/-- `getBlocksHash(blocks)` of part_007: join the block contents with
`"|||"`, fold the 32-bit hash, return `Math.abs(hash).toString(36)`. -/
def getBlocksHash (blocks : List Block) : String :=
  natToBase36 (hashChars (List.intercalate "|||".toList (blocks.map (·.content)))).natAbs

/-- The Supabase-shaped version record of part_007. -/
structure PersistedVersion where
  id : String
  blocks : List Block
  version_index : Nat
  content_hash : String
deriving DecidableEq

/-- The in-memory state of the persistence-backed engine: the loaded version
list, the cursor, `lastBlocksHashRef.current`, and the rendered document
blocks (`useDocumentStorage` state, written by undo/redo/switch). -/
structure PersistentEngineState where
  versions : List PersistedVersion
  currentVersionIndex : Int
  lastBlocksHash : String
  documentBlocks : List Block
deriving DecidableEq

/-- `createVersion(blocks)` of part_007.  `busy` models the
`isLoadingVersions || isDocumentLoading` and `isCreatingVersionRef` guards
(early return); `existsInDb` is the awaited `checkVersionExists` result;
`saveOk` is whether `saveDocumentVersion` returned a record; `newId` is the
id of the saved record.  Matching the source: the duplicate-hash check against
`lastBlocksHashRef` comes first; a DB hit updates only the hash ref; a
successful save appends the snapshot (with `version_index = versions.length`,
captured before appending), trims with `slice(-MAX_VERSIONS)`, and sets the
cursor to the captured `newVersionIndex`. -/
def createVersion (busy : Bool) (st : PersistentEngineState) (blocks : List Block)
    (existsInDb saveOk : Bool) (newId : String) : PersistentEngineState :=
  if busy then st
  else
    let hash := getBlocksHash blocks
    if hash = st.lastBlocksHash then st
    else if existsInDb then { st with lastBlocksHash := hash }
    else
      let newVersionIndex := st.versions.length
      if saveOk then
        let newVersion : PersistedVersion := ⟨newId, blocks, newVersionIndex, hash⟩
        let updated := st.versions ++ [newVersion]
        let trimmed :=
          if MAX_VERSIONS < updated.length then
            updated.drop (updated.length - MAX_VERSIONS)
          else updated
        { st with
          versions := trimmed
          currentVersionIndex := (newVersionIndex : Int)
          lastBlocksHash := hash }
      else { st with lastBlocksHash := hash }

/-- `handleSwitchToVersion(versionIndex)` of part_007: find the snapshot whose
`version_index` field matches (not the array position); unknown index or the
already-current snapshot is a no-op; otherwise restore its blocks, update the
hash ref, and move the cursor to the found array position. -/
def handleSwitchToVersion (st : PersistentEngineState) (versionIndex : Nat) :
    PersistentEngineState :=
  match st.versions.find? (fun v => v.version_index == versionIndex) with
  | none => st
  | some target =>
    let targetArrayIndex := st.versions.findIdx (fun v => v.version_index == versionIndex)
    if (targetArrayIndex : Int) = st.currentVersionIndex then st
    else
      { st with
        lastBlocksHash := getBlocksHash target.blocks
        documentBlocks := target.blocks
        currentVersionIndex := (targetArrayIndex : Int) }

/-- `handleUndo()` of part_007. -/
def handleUndo (st : PersistentEngineState) : PersistentEngineState :=
  if 0 < st.currentVersionIndex then
    match st.versions[(st.currentVersionIndex - 1).toNat]? with
    | some prevVersion =>
      { st with
        lastBlocksHash := getBlocksHash prevVersion.blocks
        documentBlocks := prevVersion.blocks
        currentVersionIndex := st.currentVersionIndex - 1 }
    | none => st
  else st

/-- `handleRedo()` of part_007. -/
def handleRedo (st : PersistentEngineState) : PersistentEngineState :=
  if st.currentVersionIndex < (st.versions.length : Int) - 1 then
    match st.versions[(st.currentVersionIndex + 1).toNat]? with
    | some nextVersion =>
      { st with
        lastBlocksHash := getBlocksHash nextVersion.blocks
        documentBlocks := nextVersion.blocks
        currentVersionIndex := st.currentVersionIndex + 1 }
    | none => st
  else st

/-! ## Edit applicator (`applyEdit` in ChatSection.tsx / part_008) -/

/-- The selection data emitted by `handleMouseUp` and held by the selection
controller (`useUIState`). -/
structure SelectionData where
  blockId : String
  selectedText : List Char
  originalMarkdown : List Char
  startOffset : Nat
  endOffset : Nat
deriving DecidableEq

/-- The functional updater inside `applyEdit`: find the block by id
(`findIndex`), return the list unchanged when absent, otherwise splice the
replacement into that block's content at the stored offsets. -/
def applyEditBlocks (newText : List Char) (sel : SelectionData)
    (blocks : List Block) : List Block :=
  match blocks.findIdx? (fun b => b.id == sel.blockId) with
  | none => blocks
  | some i =>
    listModify blocks i fun b =>
      { b with content := spliceContent b.content sel.startOffset sel.endOffset newText }

/-- `applyEdit(newText, selectionToUse)`: a `null` selection returns early
(block list untouched, selection kept); otherwise the updater runs and
`clearSelection()` is triggered unconditionally afterwards.  The boolean of
the result records whether `clearSelection()` was triggered. -/
def applyEdit (newText : List Char) (sel : Option SelectionData)
    (blocks : List Block) : List Block × Bool :=
  match sel with
  | none => (blocks, false)
  | some s => (applyEditBlocks newText s blocks, true)

/-- The blocks of the current snapshot (`currentBlocks` in
useVersionHistory.ts: `currentVersion?.blocks || []`). -/
def currentBlocksOf (st : VersionHistoryState) : List Block :=
  ((st.versions[st.currentVersionIndex.toNat]?).map (·.blocks)).getD []

/-! ## General facts about the scan, the substring search and list helpers -/

/-- The data of one `createMajorVersion` call (generated id, `Date.now()`,
the new block list, the description), used to state the retention property
over a sequence of appends. -/
structure MajorPayload where
  id : String
  now : Nat
  blocks : List Block
  desc : String

/-- The snapshot a `MajorPayload` turns into. -/
def mkPayloadVersion (p : MajorPayload) : DocumentVersion :=
  mkDocVersion p.id p.now p.blocks p.desc

/-- Run a sequence of `createMajorVersion` calls from the empty history. -/
def foldCreate (ps : List MajorPayload) : VersionHistoryState :=
  ps.foldl (fun st p => createMajorVersion st p.blocks p.desc p.id p.now) ⟨[], -1⟩

instance {α : Type} (versions : List α) (cursor : Int) :
    Decidable (cursorInv versions cursor) := by
  unfold cursorInv; infer_instance

theorem scanAux_length_eq (i : Nat) (c : List Char) :
    (scanAux i c).1.length = (scanAux i c).2.length := by
  induction i, c using scanAux.induct <;>
    simp only [scanAux] <;> (try split_ifs) <;> simp_all


theorem backquote_ne_star : backquote ≠ '*' := by decide

theorem backquote_ne_us : backquote ≠ '_' := by decide

theorem scanAux_copy (i : Nat) (c : Char) (cs : List Char)
    (h1 : c ≠ '*') (h2 : c ≠ '_') (h3 : c ≠ backquote) :
    scanAux i (c :: cs) =
      (c :: (scanAux (i + 1) cs).1, i :: (scanAux (i + 1) cs).2) := by
  cases cs with
  | nil => simp [scanAux, h3]
  | cons c₂ rest =>
    rw [scanAux]
    rw [if_neg (by simp [h1, h2]), if_neg (by simp [h1, h2]), if_neg h3]

theorem scanAux_tick (i : Nat) (cs : List Char) :
    scanAux i (backquote :: cs) = scanAux (i + 1) cs := by
  cases cs with
  | nil => simp [scanAux]
  | cons c₂ rest =>
    rw [scanAux]
    rw [if_neg (by simp [backquote_ne_star, backquote_ne_us]),
        if_neg (by simp [backquote_ne_star, backquote_ne_us]), if_pos rfl]

theorem scanAux_pair (i : Nat) (cs : List Char) :
    scanAux i ('*' :: '*' :: cs) = scanAux (i + 2) cs := by
  rw [scanAux, if_pos (Or.inl ⟨rfl, rfl⟩)]

theorem scanAux_map_bound (i : Nat) (c : List Char) :
    ∀ x ∈ (scanAux i c).2, i ≤ x ∧ x < i + c.length := by
  induction i, c using scanAux.induct with
  | case1 j => simp [scanAux]
  | case2 j => simp [scanAux]
  | case3 j ch h => simp [scanAux, h]
  | case4 j ch c₂ rest h ih =>
    intro x hx
    rw [scanAux, if_pos h] at hx
    have := ih x hx
    simp only [List.length_cons]
    omega
  | case5 j ch c₂ rest h1 h2 ih =>
    intro x hx
    rw [scanAux, if_neg h1, if_pos h2] at hx
    have := ih x hx
    simp only [List.length_cons] at this ⊢
    omega
  | case6 j c₂ rest h1 h2 ih =>
    intro x hx
    rw [scanAux, if_neg h1, if_neg h2, if_pos rfl] at hx
    have := ih x hx
    simp only [List.length_cons] at this ⊢
    omega
  | case7 j ch c₂ rest h1 h2 h3 s m heq ih =>
    intro x hx
    rw [scanAux, if_neg h1, if_neg h2, if_neg h3] at hx
    rw [heq] at hx
    simp only [List.length_cons] at *
    rcases List.mem_cons.mp hx with rfl | hxm
    · omega
    · have := ih x (by rw [heq]; exact hxm)
      omega

theorem scanAux_map_sorted (i : Nat) (c : List Char) :
    ((scanAux i c).2).Pairwise (· < ·) := by
  induction i, c using scanAux.induct with
  | case1 j => simp [scanAux]
  | case2 j => simp [scanAux]
  | case3 j ch h => simp [scanAux, h]
  | case4 j ch c₂ rest h ih => rw [scanAux, if_pos h]; exact ih
  | case5 j ch c₂ rest h1 h2 ih => rw [scanAux, if_neg h1, if_pos h2]; exact ih
  | case6 j c₂ rest h1 h2 ih => rw [scanAux, if_neg h1, if_neg h2, if_pos rfl]; exact ih
  | case7 j ch c₂ rest h1 h2 h3 s m heq ih =>
    rw [scanAux, if_neg h1, if_neg h2, if_neg h3, heq]
    simp only
    refine List.Pairwise.cons ?_ (by rw [heq] at ih; exact ih)
    intro y hy
    have := scanAux_map_bound (j + 1) (c₂ :: rest) y (by rw [heq]; exact hy)
    omega

theorem subIdx?_nil (pat : List Char) :
    subIdx? [] pat = if leadsWith pat [] = true then some 0 else none := rfl

theorem subIdx?_cons (h : Char) (t pat : List Char) :
    subIdx? (h :: t) pat =
      if leadsWith pat (h :: t) = true then some 0
      else (subIdx? t pat).map (· + 1) := rfl

theorem leadsWith_iff (pat hay : List Char) :
    leadsWith pat hay = true ↔ ∃ rest, hay = pat ++ rest := by
  induction pat generalizing hay with
  | nil => simp [leadsWith]
  | cons p ps ih =>
    cases hay with
    | nil => simp [leadsWith]
    | cons h hs =>
      simp only [leadsWith, Bool.and_eq_true, beq_iff_eq, ih, List.cons_append,
        List.cons.injEq]
      constructor
      · rintro ⟨rfl, rest, rfl⟩; exact ⟨rest, rfl, rfl⟩
      · rintro ⟨rest, rfl, rfl⟩; exact ⟨rfl, rest, rfl⟩

theorem subIdx?_le (hay pat : List Char) (j : Nat) (h : subIdx? hay pat = some j) :
    j ≤ hay.length := by
  induction hay generalizing j with
  | nil =>
    rw [subIdx?_nil] at h
    split_ifs at h
    injection h with h0; omega
  | cons c cs ih =>
    rw [subIdx?_cons] at h
    split_ifs at h
    · injection h with h0; omega
    · cases hsub : subIdx? cs pat with
      | none => rw [hsub] at h; cases h
      | some j₀ =>
        rw [hsub] at h
        simp only [Option.map_some', Option.some.injEq] at h
        have := ih j₀ hsub
        simp only [List.length_cons]
        omega

theorem subIdx?_drop (hay pat : List Char) (j : Nat) (h : subIdx? hay pat = some j) :
    ∃ rest, hay.drop j = pat ++ rest := by
  induction hay generalizing j with
  | nil =>
    rw [subIdx?_nil] at h
    split_ifs at h with hl
    injection h with h0
    obtain ⟨rest, hr⟩ := (leadsWith_iff pat []).mp hl
    exact ⟨rest, by simpa using hr⟩
  | cons c cs ih =>
    rw [subIdx?_cons] at h
    split_ifs at h with hl
    · injection h with h0
      obtain ⟨rest, hr⟩ := (leadsWith_iff pat (c :: cs)).mp hl
      exact ⟨rest, by rw [← h0]; simpa using hr⟩
    · cases hsub : subIdx? cs pat with
      | none => rw [hsub] at h; cases h
      | some j₀ =>
        rw [hsub] at h
        simp only [Option.map_some', Option.some.injEq] at h
        obtain ⟨rest, hr⟩ := ih j₀ hsub
        exact ⟨rest, by rw [← h]; simpa using hr⟩

theorem leadsWith_refl_append (pat rest : List Char) :
    leadsWith pat (pat ++ rest) = true := by
  induction pat with
  | nil => rfl
  | cons p ps ih => simp [leadsWith, ih]

theorem subIdx?_of_decomp (hay pat pre post : List Char)
    (h : hay = pre ++ pat ++ post) : ∃ j, subIdx? hay pat = some j := by
  induction pre generalizing hay with
  | nil =>
    refine ⟨0, ?_⟩
    have hlw : leadsWith pat hay = true := by
      rw [h]; simpa using leadsWith_refl_append pat post
    cases hay with
    | nil => rw [subIdx?_nil, if_pos hlw]
    | cons q qs => rw [subIdx?_cons, if_pos hlw]
  | cons c cs ih =>
    subst h
    rw [List.cons_append, List.cons_append, subIdx?_cons]
    split_ifs
    · exact ⟨0, rfl⟩
    · obtain ⟨j, hj⟩ := ih (cs ++ (pat ++ post)) (by simp)
      exact ⟨j + 1, by simp [hj]⟩

theorem sorted_getD_le (m : List Nat) (hs : m.Pairwise (· < ·)) (a b : Nat)
    (hab : a ≤ b) (hb : b < m.length) : m.getD a 0 ≤ m.getD b 0 := by
  rcases Nat.lt_or_ge a b with hlt | hge
  · have ha : a < m.length := lt_trans hlt hb
    rw [List.getD_eq_getElem m 0 ha, List.getD_eq_getElem m 0 hb]
    exact le_of_lt (List.pairwise_iff_getElem.mp hs a b ha hb hlt)
  · have : a = b := le_antisymm hab hge
    rw [this]

theorem fallbackOffsets_bounds (content selected : List Char) :
    (fallbackOffsets content selected).1 ≤ (fallbackOffsets content selected).2 ∧
      (fallbackOffsets content selected).1 ≤ content.length := by
  unfold fallbackOffsets
  cases h1 : subIdx? content selected with
  | some j =>
    simpa using subIdx?_le _ _ _ h1
  | none =>
    cases h2 : subIdx? content (selected.takeWhile (· ≠ ' ')) with
    | some j => simpa using subIdx?_le _ _ _ h2
    | none => simp

theorem scan_getD_le_length (content : List Char) (k : Nat) :
    (scanAux 0 content).2.getD k 0 ≤ content.length := by
  rcases Nat.lt_or_ge k (scanAux 0 content).2.length with hk | hk
  · rw [List.getD_eq_getElem _ 0 hk]
    have := scanAux_map_bound 0 content _ (List.getElem_mem hk)
    omega
  · rw [List.getD_eq_default _ 0 hk]
    omega

theorem scan_getD_mono (content : List Char) (a b : Nat) (hab : a ≤ b)
    (hb : b < (scanAux 0 content).2.length) :
    (scanAux 0 content).2.getD a 0 ≤ (scanAux 0 content).2.getD b 0 := by
  rcases Nat.lt_or_ge a (scanAux 0 content).2.length with ha | ha
  · exact sorted_getD_le _ (scanAux_map_sorted 0 content) a b hab hb
  · rw [List.getD_eq_default _ 0 ha]
    omega

theorem computeOffsets_bounds (content selected : List Char) :
    (computeOffsets content selected).1 ≤ (computeOffsets content selected).2 ∧
      (computeOffsets content selected).1 ≤ content.length := by
  unfold computeOffsets
  simp only [createPositionMap]
  cases hx : subIdx? (scanAux 0 content).1 selected with
  | some k =>
    simp only
    split_ifs with hlen hend
    · refine ⟨scan_getD_mono content k _ ?_ hend, scan_getD_le_length content k⟩
      omega
    · exact ⟨scan_getD_le_length content k, scan_getD_le_length content k⟩
    · exact fallbackOffsets_bounds content selected
  | none =>
    simp only
    cases hy : subIdx? (normalizeWs (scanAux 0 content).1) (normalizeWs selected) with
    | some k =>
      simp only
      split_ifs with hlen hend
      · refine ⟨scan_getD_mono content k _ ?_ hend, scan_getD_le_length content k⟩
        omega
      · exact ⟨scan_getD_le_length content k, scan_getD_le_length content k⟩
      · exact fallbackOffsets_bounds content selected
    | none =>
      exact fallbackOffsets_bounds content selected

theorem mapAddAdd (l : List Nat) (a b : Nat) :
    (l.map (· + a)).map (· + b) = l.map (· + (a + b)) := by
  rw [List.map_map]
  apply List.map_congr_left
  intro x _
  simp [Function.comp]
  omega

theorem stripPos_cons_keep (ch : Char) (cs : List Char) (h : keepChar ch = true) :
    stripPos (ch :: cs) =
      (ch :: (stripPos cs).1, 0 :: (stripPos cs).2.map (· + 1)) := by
  simp [stripPos, h]

theorem stripPos_cons_skip (ch : Char) (cs : List Char) (h : keepChar ch = false) :
    stripPos (ch :: cs) = ((stripPos cs).1, (stripPos cs).2.map (· + 1)) := by
  simp [stripPos, h]

theorem stripPos_length_eq (c : List Char) :
    (stripPos c).1.length = (stripPos c).2.length := by
  induction c with
  | nil => rfl
  | cons ch cs ih =>
    by_cases h : keepChar ch = true
    · rw [stripPos_cons_keep ch cs h]; simp [ih]
    · rw [stripPos_cons_skip ch cs (by simpa using h)]; simp [ih]

theorem goodB_cons_ne (ch : Char) (cs : List Char) (h1 : ch ≠ '*') (h2 : ch ≠ '_') :
    goodB (ch :: cs) = goodB cs := by
  rw [goodB.eq_def]
  simp only
  rw [if_neg h1, if_neg h2]

theorem goodB_pair (cs : List Char) : goodB ('*' :: '*' :: cs) = goodB cs := rfl

theorem goodB_star_elim (cs : List Char) (h : goodB ('*' :: cs) = true) :
    ∃ cs₂, cs = '*' :: cs₂ ∧ goodB cs₂ = true := by
  cases cs with
  | nil => exact absurd h (by decide)
  | cons c₂ cs₂ =>
    have h2 : (if c₂ = '*' then goodB cs₂ else false) = true := h
    split_ifs at h2 with hc
    · exact ⟨cs₂, by rw [hc], h2⟩

theorem scanAux_eq_stripPos_aux :
    ∀ n (c : List Char), c.length ≤ n → goodB c = true → ∀ i,
      scanAux i c = ((stripPos c).1, (stripPos c).2.map (· + i)) := by
  intro n
  induction n with
  | zero =>
    intro c hlen _ i
    have hc : c = [] := List.length_eq_zero.mp (by omega)
    subst hc
    simp [scanAux, stripPos]
  | succ n ih =>
    intro c hlen hg i
    cases c with
    | nil => simp [scanAux, stripPos]
    | cons ch cs =>
      by_cases hstar : ch = '*'
      · subst hstar
        obtain ⟨cs₂, rfl, hg₂⟩ := goodB_star_elim cs hg
        rw [scanAux_pair, ih cs₂ (by simp at hlen; omega) hg₂ (i + 2),
          stripPos_cons_skip _ _ (by decide), stripPos_cons_skip _ _ (by decide)]
        simp only
        rw [mapAddAdd, mapAddAdd]
        refine congrArg _ ?_
        apply List.map_congr_left
        intro x _
        omega
      · by_cases hus : ch = '_'
        · subst hus
          exact absurd hg (by rw [goodB.eq_def]; simp)
        · by_cases htick : ch = backquote
          · subst htick
            rw [scanAux_tick,
              ih cs (by simp at hlen; omega)
                (by rwa [goodB_cons_ne _ _ backquote_ne_star backquote_ne_us] at hg) (i + 1),
              stripPos_cons_skip _ _ (by simp [keepChar]), mapAddAdd]
            refine congrArg _ ?_
            apply List.map_congr_left
            intro x _
            omega
          · rw [scanAux_copy i ch cs hstar hus htick,
              ih cs (by simp at hlen; omega)
                (by rwa [goodB_cons_ne ch cs hstar hus] at hg) (i + 1),
              stripPos_cons_keep _ _ (by simp [keepChar, hstar, htick]),
              List.map_cons, mapAddAdd]
            simp only [Prod.mk.injEq, List.cons.injEq, true_and]
            refine ⟨by omega, ?_⟩
            apply List.map_congr_left
            intro x _
            omega

theorem scanAux_eq_stripPos (c : List Char) (hg : goodB c = true) :
    scanAux 0 c = stripPos c := by
  rw [scanAux_eq_stripPos_aux c.length c (le_refl _) hg 0]
  have : (stripPos c).2.map (· + 0) = (stripPos c).2 := by
    apply List.map_congr_left ?_ |>.trans (List.map_id _)
    intro x _
    rfl
  rw [this]

theorem getD_map_add (l : List Nat) (a p : Nat) (hp : p < l.length) :
    (l.map (· + a)).getD p 0 = l.getD p 0 + a := by
  rw [List.getD_eq_getElem _ 0 (by simpa using hp), List.getD_eq_getElem _ 0 hp,
    List.getElem_map]

theorem bnd_nil (k : Nat) : bnd [] k = 0 := by
  simp [bnd, stripPos]

theorem bnd_cons_skip (ch : Char) (cs : List Char) (k : Nat)
    (h : keepChar ch = false) : bnd (ch :: cs) k = bnd cs k + 1 := by
  unfold bnd
  rw [stripPos_cons_skip ch cs h]
  simp only [List.length_map]
  split_ifs with hk
  · exact getD_map_add _ 1 k hk
  · simp

theorem bnd_cons_keep_zero (ch : Char) (cs : List Char)
    (h : keepChar ch = true) : bnd (ch :: cs) 0 = 0 := by
  unfold bnd
  rw [stripPos_cons_keep ch cs h]
  simp

theorem bnd_cons_keep_succ (ch : Char) (cs : List Char) (k : Nat)
    (h : keepChar ch = true) : bnd (ch :: cs) (k + 1) = bnd cs k + 1 := by
  unfold bnd
  rw [stripPos_cons_keep ch cs h]
  simp only [List.length_cons, List.length_map, Nat.add_lt_add_iff_right]
  split_ifs with hk
  · simp only [List.getD_cons_succ]
    exact getD_map_add _ 1 k hk
  · simp

theorem stripPos_map_bound (c : List Char) :
    ∀ x ∈ (stripPos c).2, x < c.length := by
  induction c with
  | nil => simp [stripPos]
  | cons ch cs ih =>
    by_cases h : keepChar ch = true
    · rw [stripPos_cons_keep ch cs h]
      intro x hx
      simp only [List.mem_cons, List.mem_map] at hx
      rcases hx with rfl | ⟨y, hy, rfl⟩
      · simp
      · have := ih y hy
        simp only [List.length_cons]
        omega
    · rw [stripPos_cons_skip ch cs (by simpa using h)]
      intro x hx
      simp only [List.mem_map] at hx
      obtain ⟨y, hy, rfl⟩ := hx
      have := ih y hy
      simp only [List.length_cons]
      omega

theorem mapSubShift (l : List Nat) (g : Nat) :
    (l.map (· + 1)).map (· - (g + 1)) = l.map (· - g) := by
  rw [List.map_map]
  apply List.map_congr_left
  intro x _
  simp only [Function.comp_apply]
  omega

theorem stripPos_drop (c : List Char) :
    ∀ p, p < (stripPos c).2.length →
      stripPos (c.drop ((stripPos c).2.getD p 0)) =
        ((stripPos c).1.drop p,
          ((stripPos c).2.drop p).map (· - (stripPos c).2.getD p 0)) := by
  induction c with
  | nil => simp [stripPos]
  | cons ch cs ih =>
    intro p hp
    by_cases h : keepChar ch = true
    · rw [stripPos_cons_keep ch cs h] at hp ⊢
      cases p with
      | zero =>
        simp only [List.getD_cons_zero, List.drop_zero]
        rw [stripPos_cons_keep ch cs h]
        simp
      | succ p =>
        simp only [List.length_cons, List.length_map, Nat.add_lt_add_iff_right] at hp
        simp only [List.getD_cons_succ, List.drop_succ_cons]
        rw [getD_map_add _ 1 p hp, List.drop_succ_cons, ← List.map_drop, mapSubShift]
        exact ih p hp
    · have h2 : keepChar ch = false := by simpa using h
      rw [stripPos_cons_skip ch cs h2] at hp ⊢
      simp only [List.length_map] at hp
      rw [getD_map_add _ 1 p hp, List.drop_succ_cons, ← List.map_drop, mapSubShift]
      exact ih p hp

theorem stripPos_take (c : List Char) :
    ∀ k, (stripPos (c.take (bnd c k))).1 = (stripPos c).1.take k := by
  induction c with
  | nil => intro k; simp [bnd_nil, stripPos]
  | cons ch cs ih =>
    intro k
    by_cases h : keepChar ch = true
    · cases k with
      | zero =>
        rw [bnd_cons_keep_zero ch cs h, stripPos_cons_keep ch cs h]
        simp [stripPos]
      | succ k =>
        rw [bnd_cons_keep_succ ch cs k h, List.take_succ_cons,
          stripPos_cons_keep ch (cs.take (bnd cs k)) h,
          stripPos_cons_keep ch cs h, List.take_succ_cons, ih k]
    · have h2 : keepChar ch = false := by simpa using h
      rw [bnd_cons_skip ch cs k h2, List.take_succ_cons,
        stripPos_cons_skip ch (cs.take (bnd cs k)) h2,
        stripPos_cons_skip ch cs h2, ih k]

theorem goodB_drop_aux :
    ∀ n (c : List Char), c.length ≤ n → goodB c = true →
      ∀ p, p < (stripPos c).2.length →
        goodB (c.drop ((stripPos c).2.getD p 0)) = true := by
  intro n
  induction n with
  | zero =>
    intro c hlen _ p hp
    have hc : c = [] := List.length_eq_zero.mp (by omega)
    subst hc
    simp [stripPos] at hp
  | succ n ih =>
    intro c hlen hg p hp
    cases c with
    | nil => simp [stripPos] at hp
    | cons ch cs =>
      by_cases hstar : ch = '*'
      · subst hstar
        obtain ⟨cs₂, rfl, hg₂⟩ := goodB_star_elim cs hg
        rw [stripPos_cons_skip _ _ (by decide), stripPos_cons_skip _ _ (by decide)] at hp ⊢
        simp only [List.length_map] at hp
        rw [getD_map_add _ 1 p (by simpa using hp), getD_map_add _ 1 p hp,
          List.drop_succ_cons, List.drop_succ_cons]
        exact ih cs₂ (by simp at hlen; omega) hg₂ p hp
      · by_cases hus : ch = '_'
        · subst hus
          exact absurd hg (by rw [goodB.eq_def]; simp)
        · by_cases htick : ch = backquote
          · subst htick
            have hgcs : goodB cs = true := by
              rwa [goodB_cons_ne _ _ backquote_ne_star backquote_ne_us] at hg
            rw [stripPos_cons_skip _ _ (by simp [keepChar])] at hp ⊢
            simp only [List.length_map] at hp
            rw [getD_map_add _ 1 p hp, List.drop_succ_cons]
            exact ih cs (by simp at hlen; omega) hgcs p hp
          · have hgcs : goodB cs = true := by
              rwa [goodB_cons_ne ch cs hstar hus] at hg
            have hk : keepChar ch = true := by simp [keepChar, hstar, htick]
            rw [stripPos_cons_keep ch cs hk] at hp ⊢
            cases p with
            | zero => simpa using hg
            | succ p =>
              simp only [List.length_cons, List.length_map,
                Nat.add_lt_add_iff_right] at hp
              simp only [List.getD_cons_succ]
              rw [getD_map_add _ 1 p hp, List.drop_succ_cons]
              exact ih cs (by simp at hlen; omega) hgcs p hp

theorem goodB_take_aux :
    ∀ n (c : List Char), c.length ≤ n → goodB c = true →
      ∀ k, goodB (c.take (bnd c k)) = true := by
  intro n
  induction n with
  | zero =>
    intro c hlen _ k
    have hc : c = [] := List.length_eq_zero.mp (by omega)
    subst hc
    simp [bnd_nil, goodB]
  | succ n ih =>
    intro c hlen hg k
    cases c with
    | nil => simp [bnd_nil, goodB]
    | cons ch cs =>
      by_cases hstar : ch = '*'
      · subst hstar
        obtain ⟨cs₂, rfl, hg₂⟩ := goodB_star_elim cs hg
        rw [bnd_cons_skip _ _ k (by decide), bnd_cons_skip _ _ k (by decide),
          List.take_succ_cons, List.take_succ_cons, goodB_pair]
        exact ih cs₂ (by simp at hlen; omega) hg₂ k
      · by_cases hus : ch = '_'
        · subst hus
          exact absurd hg (by rw [goodB.eq_def]; simp)
        · by_cases htick : ch = backquote
          · subst htick
            have hgcs : goodB cs = true := by
              rwa [goodB_cons_ne _ _ backquote_ne_star backquote_ne_us] at hg
            rw [bnd_cons_skip _ _ k (by simp [keepChar]), List.take_succ_cons,
              goodB_cons_ne _ _ backquote_ne_star backquote_ne_us]
            exact ih cs (by simp at hlen; omega) hgcs k
          · have hgcs : goodB cs = true := by
              rwa [goodB_cons_ne ch cs hstar hus] at hg
            have hk : keepChar ch = true := by simp [keepChar, hstar, htick]
            cases k with
            | zero => rw [bnd_cons_keep_zero ch cs hk]; simp [goodB]
            | succ k =>
              rw [bnd_cons_keep_succ ch cs k hk, List.take_succ_cons,
                goodB_cons_ne ch _ hstar hus]
              exact ih cs (by simp at hlen; omega) hgcs k

theorem subIdx?_nil_pat (hay : List Char) : subIdx? hay [] = some 0 := by
  cases hay with
  | nil => rfl
  | cons h t => rw [subIdx?_cons]; simp [leadsWith]

theorem getD_map_sub (l : List Nat) (g k : Nat) (hk : k < l.length) :
    (l.map (· - g)).getD k 0 = l.getD k 0 - g := by
  rw [List.getD_eq_getElem _ 0 (by simpa using hk), List.getD_eq_getElem _ 0 hk,
    List.getElem_map]

theorem getD_drop_in (l : List Nat) (p k : Nat) (h : p + k < l.length) :
    (l.drop p).getD k 0 = l.getD (p + k) 0 := by
  have hk : k < (l.drop p).length := by simp [List.length_drop]; omega
  rw [List.getD_eq_getElem _ 0 hk, List.getD_eq_getElem _ 0 h, List.getElem_drop]

theorem computeOffsets_mapped (content selected : List Char) (p : Nat)
    (hfind : subIdx? (scanAux 0 content).1 selected = some p)
    (hlen : 0 < (scanAux 0 content).2.length) :
    computeOffsets content selected =
      ((scanAux 0 content).2.getD p 0,
        if min (p + selected.length) (scanAux 0 content).2.length <
            (scanAux 0 content).2.length then
          (scanAux 0 content).2.getD
            (min (p + selected.length) (scanAux 0 content).2.length) 0
        else content.length) := by
  unfold computeOffsets
  simp only [createPositionMap]
  rw [hfind]
  simp only [if_pos hlen]

theorem good_roundtrip (c R : List Char) (hg : goodB c = true)
    (pre post : List Char) (hdecomp : (stripPos c).1 = pre ++ R ++ post) :
    (scanAux 0 (sliceBetween c (computeOffsets c R).1 (computeOffsets c R).2)).1
      = R := by
  obtain ⟨p, hp⟩ := subIdx?_of_decomp (stripPos c).1 R pre post hdecomp
  have hple : p ≤ (stripPos c).1.length := subIdx?_le _ _ _ hp
  obtain ⟨rest, hrest⟩ := subIdx?_drop _ _ _ hp
  have hlenSM : (stripPos c).1.length = (stripPos c).2.length := stripPos_length_eq c
  have hlenDrop : (stripPos c).1.length - p = R.length + rest.length := by
    have := congrArg List.length hrest
    simpa [List.length_drop, List.length_append] using this
  have hpR : p + R.length ≤ (stripPos c).2.length := by omega
  have hfind : subIdx? (scanAux 0 c).1 R = some p := by
    rw [scanAux_eq_stripPos c hg]; exact hp
  by_cases hR : R = []
  · subst hR
    have hp0 : p = 0 := by
      have h0 := subIdx?_nil_pat (stripPos c).1
      rw [hp] at h0
      simpa using h0
    subst hp0
    by_cases hM : 0 < (scanAux 0 c).2.length
    · rw [computeOffsets_mapped c [] 0 hfind hM]
      simp only [List.length_nil, Nat.add_zero, Nat.zero_min]
      rw [if_pos hM]
      simp [sliceBetween, scanAux]
    · have hco : computeOffsets c [] = (0, 0) := by
        unfold computeOffsets fallbackOffsets
        simp only [createPositionMap]
        rw [subIdx?_nil_pat]
        simp only [if_neg hM]
        rw [subIdx?_nil_pat]
        simp
      rw [hco]
      simp [sliceBetween, scanAux]
  · have hRlen : 0 < R.length := List.length_pos.mpr hR
    have hplt : p < (stripPos c).2.length := by omega
    have hM : 0 < (scanAux 0 c).2.length := by
      rw [scanAux_eq_stripPos c hg]; omega
    rw [computeOffsets_mapped c R p hfind hM]
    rw [scanAux_eq_stripPos c hg]
    have hmin : min (p + R.length) (stripPos c).2.length = p + R.length :=
      Nat.min_eq_left hpR
    rw [hmin]
    have hgood2 : goodB (c.drop ((stripPos c).2.getD p 0)) = true :=
      goodB_drop_aux c.length c le_rfl hg p hplt
    have hsp2 := stripPos_drop c p hplt
    by_cases hend : p + R.length < (stripPos c).2.length
    · rw [if_pos hend]
      have hbnd : bnd (c.drop ((stripPos c).2.getD p 0)) R.length =
          (stripPos c).2.getD (p + R.length) 0 - (stripPos c).2.getD p 0 := by
        unfold bnd
        rw [hsp2]
        simp only [List.length_map, List.length_drop]
        rw [if_pos (by omega)]
        rw [getD_map_sub _ _ R.length (by simp [List.length_drop]; omega),
          getD_drop_in _ p R.length (by omega)]
      have hslice : sliceBetween c ((stripPos c).2.getD p 0)
            ((stripPos c).2.getD (p + R.length) 0) =
          (c.drop ((stripPos c).2.getD p 0)).take
            (bnd (c.drop ((stripPos c).2.getD p 0)) R.length) := by
        rw [hbnd]; rfl
      rw [hslice,
        scanAux_eq_stripPos _ (goodB_take_aux _ _ le_rfl hgood2 R.length),
        stripPos_take _ R.length, hsp2]
      simp only
      rw [hrest]
      exact List.take_left R rest
    · rw [if_neg hend]
      have hbnd : bnd (c.drop ((stripPos c).2.getD p 0)) R.length =
          c.length - (stripPos c).2.getD p 0 := by
        unfold bnd
        rw [hsp2]
        simp only [List.length_map, List.length_drop]
        rw [if_neg (by omega)]
      have hslice : sliceBetween c ((stripPos c).2.getD p 0) c.length =
          (c.drop ((stripPos c).2.getD p 0)).take
            (bnd (c.drop ((stripPos c).2.getD p 0)) R.length) := by
        rw [hbnd]; rfl
      rw [hslice,
        scanAux_eq_stripPos _ (goodB_take_aux _ _ le_rfl hgood2 R.length),
        stripPos_take _ R.length, hsp2]
      simp only
      rw [hrest]
      exact List.take_left R rest

/-! ## Version-engine lemmas -/

theorem capTrim_length {α : Type} (l : List α) :
    (capTrim l).length =
      if MAX_VERSIONS < l.length then MAX_VERSIONS else l.length := by
  unfold capTrim
  split_ifs with h
  · simp only [List.length_drop]
    omega
  · rfl

theorem listModify_length {α : Type} (l : List α) (i : Nat) (f : α → α) :
    (listModify l i f).length = l.length := by
  unfold listModify
  cases h : l[i]? with
  | none => rfl
  | some x => simp [List.length_set]

theorem cursorInv_last {α : Type} (l : List α) (h : l.length ≠ 0) :
    cursorInv l ((l.length : Int) - 1) := by
  unfold cursorInv
  constructor
  · right
    constructor <;> omega
  · constructor <;> intro h2 <;> omega

theorem createMajorVersion_inv (st : VersionHistoryState) (nb : List Block)
    (d i : String) (now : Nat) :
    cursorInv (createMajorVersion st nb d i now).versions
      (createMajorVersion st nb d i now).currentVersionIndex := by
  unfold createMajorVersion
  simp only
  apply cursorInv_last
  rw [capTrim_length]
  split_ifs with h
  · decide
  · simp

theorem initVersionHistory_inv (bs : List Block) (i : String) (now : Nat) :
    cursorInv (initVersionHistory bs i now).versions
      (initVersionHistory bs i now).currentVersionIndex := by
  unfold initVersionHistory
  split_ifs with h
  · exact ⟨Or.inl rfl, by simp⟩
  · exact ⟨Or.inr (by simp), by simp⟩

theorem clearVersions_inv (st : VersionHistoryState) :
    cursorInv (clearVersions st).versions (clearVersions st).currentVersionIndex :=
  ⟨Or.inl rfl, by simp [clearVersions]⟩

theorem applyMinorEdit_inv (st : VersionHistoryState) (bid : String)
    (nc : List Char) (now : Nat)
    (h : cursorInv st.versions st.currentVersionIndex) :
    cursorInv (applyMinorEdit st bid nc now).versions
      (applyMinorEdit st bid nc now).currentVersionIndex := by
  unfold applyMinorEdit
  split_ifs with hg
  · exact h
  · obtain ⟨h1, h2⟩ := h
    exact ⟨by rw [listModify_length]; exact h1, by rw [listModify_length]; exact h2⟩

theorem applyContentEdit_inv (st : VersionHistoryState) (bid : String)
    (s e : Nat) (nt : List Char) (now : Nat)
    (h : cursorInv st.versions st.currentVersionIndex) :
    cursorInv (applyContentEdit st bid s e nt now).versions
      (applyContentEdit st bid s e nt now).currentVersionIndex := by
  unfold applyContentEdit
  split_ifs with hg
  · exact h
  · obtain ⟨h1, h2⟩ := h
    exact ⟨by rw [listModify_length]; exact h1, by rw [listModify_length]; exact h2⟩

theorem undo_inv (st : VersionHistoryState)
    (h : cursorInv st.versions st.currentVersionIndex) :
    cursorInv (undo st).versions (undo st).currentVersionIndex := by
  unfold undo
  split_ifs with hg
  · exact h
  · unfold cursorInv at h ⊢
    dsimp only
    omega

theorem redo_inv (st : VersionHistoryState)
    (h : cursorInv st.versions st.currentVersionIndex) :
    cursorInv (redo st).versions (redo st).currentVersionIndex := by
  unfold redo
  split_ifs with hg
  · exact h
  · unfold cursorInv at h ⊢
    dsimp only
    omega

theorem replaceBlocks_inv (st : VersionHistoryState) (nb : List Block)
    (d i : String) (now : Nat) :
    cursorInv (replaceBlocks st nb d i now).versions
      (replaceBlocks st nb d i now).currentVersionIndex :=
  createMajorVersion_inv st nb d i now

theorem addBlocksToCurrentVersion_inv (st : VersionHistoryState)
    (nb : List Block) (im : Bool) (i : String) (now : Nat)
    (h : cursorInv st.versions st.currentVersionIndex) :
    cursorInv (addBlocksToCurrentVersion st nb im i now).versions
      (addBlocksToCurrentVersion st nb im i now).currentVersionIndex := by
  unfold addBlocksToCurrentVersion
  split_ifs with hg hc
  · dsimp only
    apply cursorInv_last
    rw [capTrim_length]
    split_ifs with h2
    · decide
    · simp
  · dsimp only
    apply cursorInv_last
    rw [capTrim_length]
    split_ifs with h2
    · decide
    · simp
  · unfold cursorInv at h ⊢
    dsimp only
    rw [listModify_length]
    omega

theorem createVersion_inv (st : PersistentEngineState) (blocks : List Block)
    (e s : Bool) (i : String)
    (h : cursorInv st.versions st.currentVersionIndex)
    (hcap : st.versions.length < MAX_VERSIONS) :
    cursorInv (createVersion false st blocks e s i).versions
      (createVersion false st blocks e s i).currentVersionIndex := by
  simp only [createVersion, Bool.false_eq_true, if_false]
  split_ifs with hh he hs htrim
  · exact h
  · exact h
  · exact absurd htrim (by simp [List.length_append]; omega)
  · unfold cursorInv at h ⊢
    dsimp only
    simp only [List.length_append, List.length_cons, List.length_nil]
    omega
  · exact h

theorem handleSwitchToVersion_inv (st : PersistentEngineState) (vi : Nat)
    (h : cursorInv st.versions st.currentVersionIndex) :
    cursorInv (handleSwitchToVersion st vi).versions
      (handleSwitchToVersion st vi).currentVersionIndex := by
  unfold handleSwitchToVersion
  cases hf : st.versions.find? (fun v => v.version_index == vi) with
  | none => exact h
  | some target =>
    simp only
    split_ifs with hc
    · exact h
    · have hmem := List.mem_of_find?_eq_some hf
      have hp := List.find?_some hf
      have hidx : st.versions.findIdx (fun v => v.version_index == vi) <
          st.versions.length :=
        List.findIdx_lt_length_of_exists ⟨target, hmem, hp⟩
      have hne : st.versions.length ≠ 0 := by
        intro h0
        rw [List.length_eq_zero.mp h0] at hmem
        cases hmem
      unfold cursorInv at h ⊢
      dsimp only
      omega

theorem handleUndo_inv (st : PersistentEngineState)
    (h : cursorInv st.versions st.currentVersionIndex) :
    cursorInv (handleUndo st).versions (handleUndo st).currentVersionIndex := by
  unfold handleUndo
  split_ifs with hg
  · cases hget : st.versions[(st.currentVersionIndex - 1).toNat]? with
    | none => exact h
    | some pv =>
      unfold cursorInv at h ⊢
      dsimp only
      omega
  · exact h

theorem handleRedo_inv (st : PersistentEngineState)
    (h : cursorInv st.versions st.currentVersionIndex) :
    cursorInv (handleRedo st).versions (handleRedo st).currentVersionIndex := by
  unfold handleRedo
  split_ifs with hg
  · cases hget : st.versions[(st.currentVersionIndex + 1).toNat]? with
    | none => exact h
    | some nv =>
      unfold cursorInv at h ⊢
      dsimp only
      omega
  · exact h

theorem createVersion_lastHash (st : PersistentEngineState) (blocks : List Block)
    (e s : Bool) (i : String) :
    (createVersion false st blocks e s i).lastBlocksHash = getBlocksHash blocks := by
  simp only [createVersion, Bool.false_eq_true, if_false]
  split_ifs with hh he hs <;> simp_all

theorem createVersion_hash_match (st : PersistentEngineState) (blocks : List Block)
    (e s : Bool) (i : String) (h : getBlocksHash blocks = st.lastBlocksHash) :
    createVersion false st blocks e s i = st := by
  simp only [createVersion, Bool.false_eq_true, if_false, if_pos h]

theorem createVersion_length_le (st : PersistentEngineState) (blocks : List Block)
    (e s : Bool) (i : String) :
    (createVersion false st blocks e s i).versions.length ≤
      st.versions.length + 1 := by
  simp only [createVersion, Bool.false_eq_true, if_false]
  split_ifs with hh he hs htrim <;>
    simp_all [List.length_append, List.length_drop]

theorem jsSliceTo_all {α : Type} (l : List α) :
    jsSliceTo l (l.length : Int) = l := by
  unfold jsSliceTo
  rw [if_neg (by omega)]
  simp

theorem foldCreate_snoc (ps : List MajorPayload) (p : MajorPayload) :
    foldCreate (ps ++ [p]) =
      createMajorVersion (foldCreate ps) p.blocks p.desc p.id p.now := by
  unfold foldCreate
  rw [List.foldl_append]
  rfl

theorem capTrim_snoc_small {α : Type} (A : List α) (x : α)
    (h : A.length < MAX_VERSIONS) : capTrim (A ++ [x]) = A ++ [x] := by
  unfold capTrim
  rw [if_neg (by simp only [List.length_append, List.length_cons, List.length_nil]; omega)]

theorem capTrim_snoc_full {α : Type} (A : List α) (x : α)
    (h : A.length = MAX_VERSIONS) : capTrim (A ++ [x]) = A.drop 1 ++ [x] := by
  unfold capTrim
  rw [if_pos (by simp only [List.length_append, List.length_cons, List.length_nil]; omega)]
  have h1 : (A ++ [x]).length - MAX_VERSIONS = 1 := by
    simp only [List.length_append, List.length_cons, List.length_nil]
    omega
  rw [h1, List.drop_append_of_le_length (by simp only [MAX_VERSIONS] at h; omega)]

theorem foldCreate_spec (ps : List MajorPayload) :
    (foldCreate ps).versions =
        (ps.map mkPayloadVersion).drop (ps.length - MAX_VERSIONS) ∧
      (foldCreate ps).currentVersionIndex =
        ((foldCreate ps).versions.length : Int) - 1 := by
  induction ps using List.reverseRecOn with
  | nil => exact ⟨rfl, rfl⟩
  | append_singleton ps p ih =>
    obtain ⟨hv, hc⟩ := ih
    rw [foldCreate_snoc]
    unfold createMajorVersion
    dsimp only
    constructor
    · have hslice : jsSliceTo (foldCreate ps).versions
          ((foldCreate ps).currentVersionIndex + 1) = (foldCreate ps).versions := by
        rw [hc, show ((foldCreate ps).versions.length : Int) - 1 + 1 =
          ((foldCreate ps).versions.length : Int) from by ring, jsSliceTo_all]
      rw [hslice, hv]
      rcases Nat.lt_or_ge ps.length MAX_VERSIONS with hlt | hge
      · rw [capTrim_snoc_small _ _
          (by simp only [List.length_drop, List.length_map]; omega)]
        have h0 : ps.length - MAX_VERSIONS = 0 := by omega
        have h1 : (ps ++ [p]).length - MAX_VERSIONS = 0 := by
          simp only [List.length_append, List.length_cons, List.length_nil]
          simp only [MAX_VERSIONS] at hlt ⊢
          omega
        rw [h0, h1, List.drop_zero, List.drop_zero, List.map_append]
        rfl
      · have hdlen : ((ps.map mkPayloadVersion).drop
            (ps.length - MAX_VERSIONS)).length = MAX_VERSIONS := by
          simp only [List.length_drop, List.length_map]
          omega
        rw [capTrim_snoc_full _ _ hdlen, List.drop_drop]
        have h2 : (ps ++ [p]).length - MAX_VERSIONS = (ps.length - MAX_VERSIONS) + 1 := by
          simp only [List.length_append, List.length_cons, List.length_nil]
          omega
        rw [h2, List.map_append,
          List.drop_append_of_le_length
            (by simp only [List.length_map]; simp only [MAX_VERSIONS] at hge ⊢; omega)]
        rfl
    · rfl

theorem set_self {α : Type} (l : List α) (i : Nat) (a : α)
    (h : l[i]? = some a) : l.set i a = l := by
  induction l generalizing i with
  | nil => simp at h
  | cons x xs ih =>
    cases i with
    | zero =>
      simp only [List.getElem?_cons_zero, Option.some.injEq] at h
      simp [h]
    | succ i =>
      simp only [List.getElem?_cons_succ] at h
      simp [ih i h]

theorem map_listModify {α β : Type} (l : List α) (i : Nat) (f : α → α)
    (g : α → β) (hx : ∀ x, l[i]? = some x → g (f x) = g x) :
    (listModify l i f).map g = l.map g := by
  unfold listModify
  cases h : l[i]? with
  | none => rfl
  | some x =>
    rw [List.map_set, hx x h]
    apply set_self
    simp [h]

theorem map_no_match (blocks : List Block) (bid : String) (upd : Block → Block)
    (h : ∀ b ∈ blocks, b.id ≠ bid) :
    (blocks.map fun b => if b.id = bid then upd b else b) = blocks := by
  have he : ∀ b ∈ blocks, (if b.id = bid then upd b else b) = b :=
    fun b hb => if_neg (h b hb)
  rw [List.map_congr_left he]
  simp

theorem handleSwitchToVersion_unknown (st : PersistentEngineState) (vi : Nat)
    (h : ∀ v ∈ st.versions, v.version_index ≠ vi) :
    handleSwitchToVersion st vi = st := by
  unfold handleSwitchToVersion
  rw [List.find?_eq_none.mpr (fun x hx => by simp [h x hx])]

theorem applyMinorEdit_unknown (st : VersionHistoryState) (bid : String)
    (nc : List Char) (now : Nat)
    (h : ∀ b ∈ currentBlocksOf st, b.id ≠ bid) :
    (applyMinorEdit st bid nc now).versions.map (fun v => v.blocks) =
        st.versions.map (fun v => v.blocks) ∧
      (applyMinorEdit st bid nc now).currentVersionIndex =
        st.currentVersionIndex ∧
      (applyMinorEdit st bid nc now).versions.length = st.versions.length := by
  unfold applyMinorEdit
  split_ifs with hg
  · exact ⟨rfl, rfl, rfl⟩
  · refine ⟨?_, rfl, listModify_length _ _ _⟩
    apply map_listModify
    intro x hx
    dsimp only
    apply map_no_match
    intro b hb
    apply h
    unfold currentBlocksOf
    rw [hx]
    exact hb

theorem applyContentEdit_unknown (st : VersionHistoryState) (bid : String)
    (s e : Nat) (nt : List Char) (now : Nat)
    (h : ∀ b ∈ currentBlocksOf st, b.id ≠ bid) :
    (applyContentEdit st bid s e nt now).versions.map (fun v => v.blocks) =
        st.versions.map (fun v => v.blocks) ∧
      (applyContentEdit st bid s e nt now).currentVersionIndex =
        st.currentVersionIndex ∧
      (applyContentEdit st bid s e nt now).versions.length =
        st.versions.length := by
  unfold applyContentEdit
  split_ifs with hg
  · exact ⟨rfl, rfl, rfl⟩
  · refine ⟨?_, rfl, listModify_length _ _ _⟩
    apply map_listModify
    intro x hx
    dsimp only
    apply map_no_match
    intro b hb
    apply h
    unfold currentBlocksOf
    rw [hx]
    exact hb

theorem applyEdit_missing (t : List Char) (sel : SelectionData)
    (blocks : List Block) (h : ∀ b ∈ blocks, b.id ≠ sel.blockId) :
    applyEdit t (some sel) blocks = (blocks, true) := by
  have hnone : applyEditBlocks t sel blocks = blocks := by
    unfold applyEditBlocks
    rw [List.findIdx?_eq_none_iff.mpr (fun b hb => by simp [h b hb])]
  show (applyEditBlocks t sel blocks, true) = (blocks, true)
  rw [hnone]

theorem closeCond_no_space (m : Char) (cs : List Char) (h : ' ' ∉ cs) :
    closeCond m cs = false := by
  have hsp : cs.findIdx? (· == ' ') = none :=
    List.findIdx?_eq_none_iff.mpr (fun x hx => by
      rcases eq_or_ne x ' ' with rfl | hne
      · exact absurd hx h
      · simp [hne])
  unfold closeCond
  rw [hsp]
  cases cs.findIdx? (· == m) <;> rfl


/-! ## Claims -/

/-- Claim C1, counterexample: for `blockContent = "x *ab* y"` (which contains a
balanced `*em*` pair) and the rendered substring `R = "x ab"` of the stripped
text `"x ab* y"`, the computed offsets are `(0, 5)`; stripping the slice
`"x *ab"` with the same scan leaves the opening `*` in place (its closing
marker is outside the slice), so the result is `"x *ab"`, not `R`.  The claim
as stated is therefore false. -/
theorem c1_counterexample :
    (createPositionMap "x *ab* y".toList).1 =
        [] ++ "x ab".toList ++ "* y".toList ∧
      computeOffsets "x *ab* y".toList "x ab".toList = (0, 5) ∧
      (scanAux 0 (sliceBetween "x *ab* y".toList
          (computeOffsets "x *ab* y".toList "x ab".toList).1
          (computeOffsets "x *ab* y".toList "x ab".toList).2)).1 =
        "x *ab".toList ∧
      "x *ab".toList ≠ "x ab".toList := by
  refine ⟨by decide, by decide, by decide, by decide⟩

/-- Claim C1 (amended): for every `blockContent` whose emphasis markers are
only `**bold**` pairs and backquote code markers — concretely, no underscore
occurs and every asterisk belongs to an adjacent `**` pair (`goodB`), so the
context-dependent single-marker heuristic never fires — and every contiguous
substring `R` of the fully-stripped text, the offset computation returns
`(s, e)` such that stripping `blockContent[s:e]` with the same
marker-stripping scan yields exactly `R`.  (The original claim also allowed
single-`*` emphasis; the counterexample shows the property fails there.) -/
theorem c1_roundtrip_amended (c R : List Char) (hgood : goodB c = true)
    (hsub : ∃ pre post, (createPositionMap c).1 = pre ++ R ++ post) :
    (scanAux 0 (sliceBetween c (computeOffsets c R).1
      (computeOffsets c R).2)).1 = R := by
  obtain ⟨pre, post, hd⟩ := hsub
  refine good_roundtrip c R hgood pre post ?_
  rw [← scanAux_eq_stripPos c hgood]
  exact hd

/-- Witness for C1 at `blockContent = "ab **cd** ef"`, `R = "b cd"`. -/
theorem c1_witness :
    goodB "ab **cd** ef".toList = true ∧
      (∃ pre post, (createPositionMap "ab **cd** ef".toList).1 =
        pre ++ "b cd".toList ++ post) ∧
      (scanAux 0 (sliceBetween "ab **cd** ef".toList
        (computeOffsets "ab **cd** ef".toList "b cd".toList).1
        (computeOffsets "ab **cd** ef".toList "b cd".toList).2)).1 =
        "b cd".toList :=
  ⟨by decide, ⟨"a".toList, " ef".toList, by decide⟩,
    c1_roundtrip_amended "ab **cd** ef".toList "b cd".toList (by decide)
      ⟨"a".toList, " ef".toList, by decide⟩⟩

/-- Claim C2, counterexample: on `"The **quick** fox"` with rendered selection
`"quick"` the mapper returns `(6, 13)`; offset 13 is the index of the space
after the closing `**`, so the spliced span swallows those markers and the
edit applicator produces `"The **slow fox"`, not `"The **slow** fox"` as the
claim states. -/
theorem c2_counterexample :
    computeOffsets "The **quick** fox".toList "quick".toList = (6, 13) ∧
      applyEdit "slow".toList
        (some ⟨"b1", "quick".toList, "quick**".toList, 6, 13⟩)
        [⟨"b1", "paragraph", "The **quick** fox".toList⟩] =
        ([⟨"b1", "paragraph", "The **slow fox".toList⟩], true) ∧
      "The **slow fox".toList ≠ "The **slow** fox".toList := by
  refine ⟨by decide, by decide, by decide⟩

/-- Claim C2 (amended): for block content `"The **quick** fox"` and rendered
selection `"quick"`, the mapper returns `startOffset = 6`, the index of the
`q` inside the `**` markers (not the markers themselves), and
`endOffset = 13`, which places the closing `**` inside the replaced span
(`originalMarkdown = "quick**"`); splicing the replacement `"slow"` at these
offsets through the edit applicator therefore yields `"The **slow fox"`.
(The original claim expected `"The **slow** fox"`.) -/
theorem c2_splice_amended :
    (computeOffsets "The **quick** fox".toList "quick".toList).1 = 6 ∧
      "The **quick** fox".toList[6]? = some 'q' ∧
      sliceBetween "The **quick** fox".toList 6 13 = "quick**".toList ∧
      applyEdit "slow".toList
        (some ⟨"b1", "quick".toList, "quick**".toList, 6, 13⟩)
        [⟨"b1", "paragraph", "The **quick** fox".toList⟩] =
        ([⟨"b1", "paragraph", "The **slow fox".toList⟩], true) := by
  refine ⟨by decide, by decide, by decide, by decide⟩

/-- Claim C3, counterexample: for `blockContent = "a"` and selection `"bc"`
every lookup fails, the first-word fallback also fails, so `startOffset = 0`
and `endOffset = 0 + 2 = 2 > 1 = blockContent.length`: the claimed bound
`endOffset ≤ blockContent.length` does not hold on the fallback paths. -/
theorem c3_counterexample :
    computeOffsets "a".toList "bc".toList = (0, 2) ∧
      ¬ (computeOffsets "a".toList "bc".toList).2 ≤ "a".toList.length := by
  refine ⟨by decide, by decide⟩

/-- Claim C3 (amended): for every `blockContent` and every rendered selection
the offset computation (a total function, including all fallback paths)
returns a pair with `0 ≤ startOffset ≤ endOffset` and
`startOffset ≤ blockContent.length`.  (The original claim also required
`endOffset ≤ blockContent.length`, which fails on the fallback paths, where
`endOffset = startOffset + selection.length` may exceed the content
length.) -/
theorem c3_bounds_amended (content selected : List Char) :
    (computeOffsets content selected).1 ≤ (computeOffsets content selected).2 ∧
      (computeOffsets content selected).1 ≤ content.length :=
  computeOffsets_bounds content selected

/-- Claim C4, counterexample: with the persistence-backed engine already
holding `MAX_VERSIONS = 10` snapshots and cursor 9 (invariant holds), a
`createVersion` call with fresh content, no DB hit and a successful save
appends an 11th snapshot, trims the list back to 10, but sets the cursor to
the captured pre-trim index 10 — one past the end of the trimmed list — so
the invariant `0 ≤ cursor < len(versions)` is violated. -/
theorem c4_counterexample :
    cursorInv (List.replicate 10 (⟨"v", [], 0, "h"⟩ : PersistedVersion)) (9 : Int) ∧
      ¬ cursorInv
        (createVersion false ⟨List.replicate 10 ⟨"v", [], 0, "h"⟩, 9, "", []⟩
          [⟨"b", "paragraph", "a".toList⟩] false true "nid").versions
        (createVersion false ⟨List.replicate 10 ⟨"v", [], 0, "h"⟩, 9, "", []⟩
          [⟨"b", "paragraph", "a".toList⟩] false true "nid").currentVersionIndex := by
  refine ⟨by decide, by decide⟩

/-- Claim C4 (amended): every operation of the in-memory version engine
(initial state construction, createMajorVersion, applyMinorEdit,
applyContentEdit, addBlocksToCurrentVersion, replaceBlocks, undo, redo,
clearVersions) preserves the cursor invariant (`0 ≤ cursor < len(versions)`
when non-empty, `cursor = -1` iff empty), as do the persistence-backed
switch/undo/redo operations; the persistence-backed `createVersion` preserves
it provided the version list is below the retention cap before the call.
(The original claim asserted this for `createVersion` unconditionally; at the
cap, a successful save leaves `cursor = len(versions)`, see the
counterexample.) -/
theorem c4_invariant_amended :
    (∀ (bs : List Block) (i : String) (now : Nat),
        cursorInv (initVersionHistory bs i now).versions
          (initVersionHistory bs i now).currentVersionIndex) ∧
    (∀ (st : VersionHistoryState) (nb : List Block) (d i : String) (now : Nat),
        cursorInv (createMajorVersion st nb d i now).versions
          (createMajorVersion st nb d i now).currentVersionIndex) ∧
    (∀ (st : VersionHistoryState) (bid : String) (nc : List Char) (now : Nat),
        cursorInv st.versions st.currentVersionIndex →
          cursorInv (applyMinorEdit st bid nc now).versions
            (applyMinorEdit st bid nc now).currentVersionIndex) ∧
    (∀ (st : VersionHistoryState) (bid : String) (s e : Nat) (nt : List Char)
        (now : Nat),
        cursorInv st.versions st.currentVersionIndex →
          cursorInv (applyContentEdit st bid s e nt now).versions
            (applyContentEdit st bid s e nt now).currentVersionIndex) ∧
    (∀ (st : VersionHistoryState) (nb : List Block) (im : Bool) (i : String)
        (now : Nat),
        cursorInv st.versions st.currentVersionIndex →
          cursorInv (addBlocksToCurrentVersion st nb im i now).versions
            (addBlocksToCurrentVersion st nb im i now).currentVersionIndex) ∧
    (∀ (st : VersionHistoryState) (nb : List Block) (d i : String) (now : Nat),
        cursorInv (replaceBlocks st nb d i now).versions
          (replaceBlocks st nb d i now).currentVersionIndex) ∧
    (∀ st : VersionHistoryState,
        cursorInv st.versions st.currentVersionIndex →
          cursorInv (undo st).versions (undo st).currentVersionIndex) ∧
    (∀ st : VersionHistoryState,
        cursorInv st.versions st.currentVersionIndex →
          cursorInv (redo st).versions (redo st).currentVersionIndex) ∧
    (∀ st : VersionHistoryState,
        cursorInv (clearVersions st).versions
          (clearVersions st).currentVersionIndex) ∧
    (∀ (st : PersistentEngineState) (vi : Nat),
        cursorInv st.versions st.currentVersionIndex →
          cursorInv (handleSwitchToVersion st vi).versions
            (handleSwitchToVersion st vi).currentVersionIndex) ∧
    (∀ st : PersistentEngineState,
        cursorInv st.versions st.currentVersionIndex →
          cursorInv (handleUndo st).versions (handleUndo st).currentVersionIndex) ∧
    (∀ st : PersistentEngineState,
        cursorInv st.versions st.currentVersionIndex →
          cursorInv (handleRedo st).versions (handleRedo st).currentVersionIndex) ∧
    (∀ (st : PersistentEngineState) (blocks : List Block) (e s : Bool)
        (i : String),
        cursorInv st.versions st.currentVersionIndex →
          st.versions.length < MAX_VERSIONS →
            cursorInv (createVersion false st blocks e s i).versions
              (createVersion false st blocks e s i).currentVersionIndex) :=
  ⟨initVersionHistory_inv, createMajorVersion_inv, applyMinorEdit_inv,
    applyContentEdit_inv, addBlocksToCurrentVersion_inv,
    fun st nb d i now => replaceBlocks_inv st nb d i now,
    undo_inv, redo_inv, clearVersions_inv, handleSwitchToVersion_inv,
    handleUndo_inv, handleRedo_inv, createVersion_inv⟩

/-- Witness for C4: the hypothesis-bearing components applied at concrete
states whose invariant (and cap bound) is checked by `decide`. -/
theorem c4_witness :
    cursorInv (applyMinorEdit ⟨[⟨"v", 0, [], ChangeType.major, "d"⟩], 0⟩
        "b1" "x".toList 1).versions
      (applyMinorEdit ⟨[⟨"v", 0, [], ChangeType.major, "d"⟩], 0⟩
        "b1" "x".toList 1).currentVersionIndex ∧
    cursorInv (applyContentEdit ⟨[⟨"v", 0, [], ChangeType.major, "d"⟩], 0⟩
        "b1" 0 0 "x".toList 1).versions
      (applyContentEdit ⟨[⟨"v", 0, [], ChangeType.major, "d"⟩], 0⟩
        "b1" 0 0 "x".toList 1).currentVersionIndex ∧
    cursorInv (addBlocksToCurrentVersion ⟨[⟨"v", 0, [], ChangeType.major, "d"⟩], 0⟩
        [] false "i" 1).versions
      (addBlocksToCurrentVersion ⟨[⟨"v", 0, [], ChangeType.major, "d"⟩], 0⟩
        [] false "i" 1).currentVersionIndex ∧
    cursorInv (undo ⟨[⟨"v", 0, [], ChangeType.major, "d"⟩], 0⟩).versions
      (undo ⟨[⟨"v", 0, [], ChangeType.major, "d"⟩], 0⟩).currentVersionIndex ∧
    cursorInv (redo ⟨[⟨"v", 0, [], ChangeType.major, "d"⟩], 0⟩).versions
      (redo ⟨[⟨"v", 0, [], ChangeType.major, "d"⟩], 0⟩).currentVersionIndex ∧
    cursorInv (handleSwitchToVersion ⟨[⟨"v", [], 0, "h"⟩], 0, "", []⟩ 0).versions
      (handleSwitchToVersion ⟨[⟨"v", [], 0, "h"⟩], 0, "", []⟩ 0).currentVersionIndex ∧
    cursorInv (handleUndo ⟨[⟨"v", [], 0, "h"⟩], 0, "", []⟩).versions
      (handleUndo ⟨[⟨"v", [], 0, "h"⟩], 0, "", []⟩).currentVersionIndex ∧
    cursorInv (handleRedo ⟨[⟨"v", [], 0, "h"⟩], 0, "", []⟩).versions
      (handleRedo ⟨[⟨"v", [], 0, "h"⟩], 0, "", []⟩).currentVersionIndex ∧
    cursorInv (createVersion false ⟨[⟨"v", [], 0, "h"⟩], 0, "", []⟩
        [] false false "x").versions
      (createVersion false ⟨[⟨"v", [], 0, "h"⟩], 0, "", []⟩
        [] false false "x").currentVersionIndex :=
  ⟨c4_invariant_amended.2.2.1 _ "b1" "x".toList 1 (by decide),
   c4_invariant_amended.2.2.2.1 _ "b1" 0 0 "x".toList 1 (by decide),
   c4_invariant_amended.2.2.2.2.1 _ [] false "i" 1 (by decide),
   c4_invariant_amended.2.2.2.2.2.2.1 _ (by decide),
   c4_invariant_amended.2.2.2.2.2.2.2.1 _ (by decide),
   c4_invariant_amended.2.2.2.2.2.2.2.2.2.1 _ 0 (by decide),
   c4_invariant_amended.2.2.2.2.2.2.2.2.2.2.1 _ (by decide),
   c4_invariant_amended.2.2.2.2.2.2.2.2.2.2.2.1 _ (by decide),
   c4_invariant_amended.2.2.2.2.2.2.2.2.2.2.2.2 _ [] false false "x"
     (by decide) (by decide)⟩

/-- Claim C5: with versions `[v0, v1, v2]` and the cursor at `v1` (as after
one undo), `createMajorVersion(newBlocks)` discards `v2`, appends the new
snapshot built from `newBlocks` and sets the cursor to index 2; in general it
truncates the version list to `[0..cursor]`, appends the new snapshot,
enforces the retention cap, and sets the cursor to the new last index. -/
theorem c5_create_major_version :
    (∀ (v0 v1 v2 : DocumentVersion) (nb : List Block) (d i : String) (now : Nat),
        createMajorVersion ⟨[v0, v1, v2], 1⟩ nb d i now =
          ⟨[v0, v1, mkDocVersion i now nb d], 2⟩) ∧
    (∀ (st : VersionHistoryState) (nb : List Block) (d i : String) (now : Nat),
        cursorInv st.versions st.currentVersionIndex →
          (createMajorVersion st nb d i now).versions =
              capTrim (st.versions.take (st.currentVersionIndex + 1).toNat ++
                [mkDocVersion i now nb d]) ∧
            (createMajorVersion st nb d i now).currentVersionIndex =
              ((createMajorVersion st nb d i now).versions.length : Int) - 1) := by
  constructor
  · intro v0 v1 v2 nb d i now
    rfl
  · intro st nb d i now h
    have hge : 0 ≤ st.currentVersionIndex + 1 := by
      rcases h with ⟨h1, h2⟩
      omega
    unfold createMajorVersion jsSliceTo
    rw [if_neg (by omega)]
    exact ⟨rfl, rfl⟩

/-- Witness for C5's general part at a concrete one-version state. -/
theorem c5_witness :
    cursorInv ([⟨"v", 0, [], ChangeType.major, "d"⟩] :
        List DocumentVersion) (0 : Int) ∧
      (createMajorVersion ⟨[⟨"v", 0, [], ChangeType.major, "d"⟩], 0⟩
          [] "d2" "i2" 7).versions =
        capTrim (([⟨"v", 0, [], ChangeType.major, "d"⟩] :
            List DocumentVersion).take ((0 : Int) + 1).toNat ++
          [mkDocVersion "i2" 7 [] "d2"]) ∧
      (createMajorVersion ⟨[⟨"v", 0, [], ChangeType.major, "d"⟩], 0⟩
          [] "d2" "i2" 7).currentVersionIndex =
        ((createMajorVersion ⟨[⟨"v", 0, [], ChangeType.major, "d"⟩], 0⟩
          [] "d2" "i2" 7).versions.length : Int) - 1 :=
  ⟨by decide,
   (c5_create_major_version.2 ⟨[⟨"v", 0, [], ChangeType.major, "d"⟩], 0⟩
     [] "d2" "i2" 7 (by decide)).1,
   (c5_create_major_version.2 ⟨[⟨"v", 0, [], ChangeType.major, "d"⟩], 0⟩
     [] "d2" "i2" 7 (by decide)).2⟩

/-- Claim C6: appending `CAP + k` versions (`k ≥ 1`, `CAP = MAX_VERSIONS =
10`) via `createMajorVersion` starting from the empty history leaves exactly
`CAP` versions, and they are the snapshots of the most recent `CAP` appends
in their original relative order. -/
theorem c6_retention (ps : List MajorPayload) (h : MAX_VERSIONS < ps.length) :
    (foldCreate ps).versions.length = MAX_VERSIONS ∧
      (foldCreate ps).versions =
        (ps.map mkPayloadVersion).drop (ps.length - MAX_VERSIONS) := by
  obtain ⟨hv, _⟩ := foldCreate_spec ps
  refine ⟨?_, hv⟩
  rw [hv]
  simp only [List.length_drop, List.length_map]
  simp only [MAX_VERSIONS] at h ⊢
  omega

/-- Witness for C6 with `CAP + 1 = 11` appends. -/
theorem c6_witness :
    MAX_VERSIONS < (List.replicate 11 (⟨"v", 0, [], "d"⟩ : MajorPayload)).length ∧
      (foldCreate (List.replicate 11 ⟨"v", 0, [], "d"⟩)).versions.length =
        MAX_VERSIONS ∧
      (foldCreate (List.replicate 11 ⟨"v", 0, [], "d"⟩)).versions =
        ((List.replicate 11 (⟨"v", 0, [], "d"⟩ : MajorPayload)).map
            mkPayloadVersion).drop
          ((List.replicate 11 (⟨"v", 0, [], "d"⟩ : MajorPayload)).length -
            MAX_VERSIONS) :=
  ⟨by decide,
   (c6_retention (List.replicate 11 ⟨"v", 0, [], "d"⟩) (by decide)).1,
   (c6_retention (List.replicate 11 ⟨"v", 0, [], "d"⟩) (by decide)).2⟩

/-- Claim C7, counterexample: `applyMinorEdit` with a block id that matches no
block of the current snapshot does not leave the state completely unchanged —
it refreshes the current snapshot's timestamp (`Date.now()`), here from 5 to
6, so the resulting state differs from the input state. -/
theorem c7_counterexample :
    applyMinorEdit
        ⟨[⟨"v1", 5, [⟨"b1", "paragraph", "hi".toList⟩], ChangeType.major, "d"⟩], 0⟩
        "zz" "q".toList 6 ≠
      ⟨[⟨"v1", 5, [⟨"b1", "paragraph", "hi".toList⟩], ChangeType.major, "d"⟩], 0⟩ := by
  decide

/-- Claim C7 (amended): `switchToVersion` with a sequence index matching no
snapshot returns the state strictly unchanged; `applyMinorEdit` /
`applyContentEdit` with a block id appearing in no block of the current
snapshot leave every block of every snapshot, the cursor and the version
count unchanged and raise no exception — but they do refresh the current
snapshot's timestamp, so the state is not completely unchanged (see the
counterexample; the original claim said no field, including timestamps, is
modified). -/
theorem c7_unknown_reference_amended :
    (∀ (st : PersistentEngineState) (vi : Nat),
        (∀ v ∈ st.versions, v.version_index ≠ vi) →
          handleSwitchToVersion st vi = st) ∧
    (∀ (st : VersionHistoryState) (bid : String) (nc : List Char) (now : Nat),
        (∀ b ∈ currentBlocksOf st, b.id ≠ bid) →
          (applyMinorEdit st bid nc now).versions.map (fun v => v.blocks) =
              st.versions.map (fun v => v.blocks) ∧
            (applyMinorEdit st bid nc now).currentVersionIndex =
              st.currentVersionIndex ∧
            (applyMinorEdit st bid nc now).versions.length =
              st.versions.length) ∧
    (∀ (st : VersionHistoryState) (bid : String) (s e : Nat) (nt : List Char)
        (now : Nat),
        (∀ b ∈ currentBlocksOf st, b.id ≠ bid) →
          (applyContentEdit st bid s e nt now).versions.map (fun v => v.blocks) =
              st.versions.map (fun v => v.blocks) ∧
            (applyContentEdit st bid s e nt now).currentVersionIndex =
              st.currentVersionIndex ∧
            (applyContentEdit st bid s e nt now).versions.length =
              st.versions.length) :=
  ⟨handleSwitchToVersion_unknown, applyMinorEdit_unknown,
    applyContentEdit_unknown⟩

/-- Witness for C7 at concrete states with unknown references. -/
theorem c7_witness :
    handleSwitchToVersion ⟨[⟨"v", [], 0, "h"⟩], 0, "", []⟩ 5 =
        ⟨[⟨"v", [], 0, "h"⟩], 0, "", []⟩ ∧
      ((applyMinorEdit
            ⟨[⟨"v1", 5, [⟨"b1", "paragraph", "hi".toList⟩], ChangeType.major, "d"⟩], 0⟩
            "zz" "q".toList 6).versions.map (fun v => v.blocks) =
          ([⟨"v1", 5, [⟨"b1", "paragraph", "hi".toList⟩], ChangeType.major, "d"⟩] :
            List DocumentVersion).map (fun v => v.blocks) ∧
        (applyMinorEdit
            ⟨[⟨"v1", 5, [⟨"b1", "paragraph", "hi".toList⟩], ChangeType.major, "d"⟩], 0⟩
            "zz" "q".toList 6).currentVersionIndex = (0 : Int) ∧
        (applyMinorEdit
            ⟨[⟨"v1", 5, [⟨"b1", "paragraph", "hi".toList⟩], ChangeType.major, "d"⟩], 0⟩
            "zz" "q".toList 6).versions.length =
          ([⟨"v1", 5, [⟨"b1", "paragraph", "hi".toList⟩], ChangeType.major, "d"⟩] :
            List DocumentVersion).length) ∧
      ((applyContentEdit
            ⟨[⟨"v1", 5, [⟨"b1", "paragraph", "hi".toList⟩], ChangeType.major, "d"⟩], 0⟩
            "zz" 0 1 "q".toList 6).versions.map (fun v => v.blocks) =
          ([⟨"v1", 5, [⟨"b1", "paragraph", "hi".toList⟩], ChangeType.major, "d"⟩] :
            List DocumentVersion).map (fun v => v.blocks) ∧
        (applyContentEdit
            ⟨[⟨"v1", 5, [⟨"b1", "paragraph", "hi".toList⟩], ChangeType.major, "d"⟩], 0⟩
            "zz" 0 1 "q".toList 6).currentVersionIndex = (0 : Int) ∧
        (applyContentEdit
            ⟨[⟨"v1", 5, [⟨"b1", "paragraph", "hi".toList⟩], ChangeType.major, "d"⟩], 0⟩
            "zz" 0 1 "q".toList 6).versions.length =
          ([⟨"v1", 5, [⟨"b1", "paragraph", "hi".toList⟩], ChangeType.major, "d"⟩] :
            List DocumentVersion).length) :=
  ⟨c7_unknown_reference_amended.1 ⟨[⟨"v", [], 0, "h"⟩], 0, "", []⟩ 5 (by decide),
   c7_unknown_reference_amended.2.1
     ⟨[⟨"v1", 5, [⟨"b1", "paragraph", "hi".toList⟩], ChangeType.major, "d"⟩], 0⟩
     "zz" "q".toList 6 (by decide),
   c7_unknown_reference_amended.2.2
     ⟨[⟨"v1", 5, [⟨"b1", "paragraph", "hi".toList⟩], ChangeType.major, "d"⟩], 0⟩
     "zz" 0 1 "q".toList 6 (by decide)⟩

/-- Claim C8, counterexample: when the selection's block id matches no block,
`applyEdit` leaves the block list unchanged (a no-op splice) but still
triggers `clearSelection()` — the boolean in the result is `true`, where the
claim requires the selection not to be cleared after a no-op. -/
theorem c8_counterexample :
    applyEdit "t".toList (some ⟨"zz", [], [], 0, 0⟩)
        [⟨"b1", "paragraph", "xy".toList⟩] =
      ([⟨"b1", "paragraph", "xy".toList⟩], true) ∧
      (applyEdit "t".toList (some ⟨"zz", [], [], 0, 0⟩)
        [⟨"b1", "paragraph", "xy".toList⟩]).2 ≠ false := by
  refine ⟨by decide, by decide⟩

/-- Claim C8 (amended): with a null selection `applyEdit` returns the block
list unchanged and does not trigger `clearSelection()`; with a non-null
selection whose block id matches no block it returns the block list unchanged
but still triggers `clearSelection()` (the call is unconditional after the
null check — the original claim said it is never triggered after a no-op). -/
theorem c8_clear_selection_amended :
    (∀ (t : List Char) (blocks : List Block),
        applyEdit t none blocks = (blocks, false)) ∧
    (∀ (t : List Char) (sel : SelectionData) (blocks : List Block),
        (∀ b ∈ blocks, b.id ≠ sel.blockId) →
          applyEdit t (some sel) blocks = (blocks, true)) :=
  ⟨fun _ _ => rfl, applyEdit_missing⟩

/-- Witness for C8 at a concrete missing-block selection. -/
theorem c8_witness :
    applyEdit "t".toList none [⟨"b1", "paragraph", "xy".toList⟩] =
        ([⟨"b1", "paragraph", "xy".toList⟩], false) ∧
      applyEdit "t".toList (some ⟨"zz", [], [], 0, 0⟩)
          [⟨"b1", "paragraph", "xy".toList⟩] =
        ([⟨"b1", "paragraph", "xy".toList⟩], true) :=
  ⟨c8_clear_selection_amended.1 "t".toList [⟨"b1", "paragraph", "xy".toList⟩],
   c8_clear_selection_amended.2 "t".toList ⟨"zz", [], [], 0, 0⟩
     [⟨"b1", "paragraph", "xy".toList⟩] (by decide)⟩

/-- Claim C9: calling the persistence-backed snapshot-creation path twice in
sequence with byte-identical block content produces at most one new snapshot:
the first call leaves `lastBlocksHashRef` equal to the deterministic
order-sensitive hash of the joined block contents (in every branch), so the
second call detects the match in its first fingerprint check and returns the
state unchanged; the first call grows the version list by at most one. -/
theorem c9_dedup (st : PersistentEngineState) (blocks : List Block)
    (e1 s1 e2 s2 : Bool) (i1 i2 : String) :
    createVersion false (createVersion false st blocks e1 s1 i1) blocks e2 s2 i2 =
        createVersion false st blocks e1 s1 i1 ∧
      (createVersion false st blocks e1 s1 i1).versions.length ≤
        st.versions.length + 1 :=
  ⟨createVersion_hash_match _ _ e2 s2 i2
      (createVersion_lastHash st blocks e1 s1 i1).symm,
    createVersion_length_le st blocks e1 s1 i1⟩

/-- Claim C10: when the scan is at a single `*` or `_` (not part of a double
marker, i.e. the next character differs from it) that is immediately followed
by a non-space character but with no space anywhere later in the string, the
closing-marker condition compares the closing index against `indexOf` of the
next space, which is `-1`, so even when a matching closing marker exists the
scan copies the marker to the stripped output as a literal character:
emphasis that closes at end-of-string with no following space is not
stripped. -/
theorem c10_literal_single_marker (i : Nat) (marker : Char) (cs : List Char)
    (hm : marker = '*' ∨ marker = '_') (hne : cs ≠ [])
    (hnotpair : cs.head? ≠ some marker) (hnospace : ' ' ∉ cs)
    (hclose : marker ∈ cs) :
    scanAux i (marker :: cs) =
      (marker :: (scanAux (i + 1) cs).1, i :: (scanAux (i + 1) cs).2) := by
  cases cs with
  | nil => exact absurd rfl hne
  | cons c₂ rest =>
    have hc₂ : c₂ ≠ marker := by
      intro he
      exact hnotpair (by rw [List.head?_cons, he])
    have hpairneg : ¬((marker = '*' ∧ c₂ = '*') ∨ (marker = '_' ∧ c₂ = '_')) := by
      rintro (⟨h1, h2⟩ | ⟨h1, h2⟩)
      · exact hc₂ (h2.trans h1.symm)
      · exact hc₂ (h2.trans h1.symm)
    have hsingleneg : ¬((marker = '*' ∨ marker = '_') ∧ c₂ ≠ ' ' ∧
        closeCond marker (c₂ :: rest) = true) := by
      rintro ⟨-, -, hcc⟩
      rw [closeCond_no_space marker (c₂ :: rest) hnospace] at hcc
      cases hcc
    have htickneg : marker ≠ backquote := by
      rcases hm with rfl | rfl <;> decide
    rw [scanAux, if_neg hpairneg, if_neg hsingleneg, if_neg htickneg]

/-- Witness for C10: at `"*bc*"` (scan position 2 of a larger text), the
opening `*` is followed by `b`, a closing `*` exists before end-of-string,
no space follows, and the marker is copied as a literal. -/
theorem c10_witness :
    (('*' : Char) = '*' ∨ ('*' : Char) = '_') ∧
      "bc*".toList ≠ [] ∧
      "bc*".toList.head? ≠ some '*' ∧
      ' ' ∉ "bc*".toList ∧
      '*' ∈ "bc*".toList ∧
      scanAux 2 ('*' :: "bc*".toList) =
        ('*' :: (scanAux 3 "bc*".toList).1, 2 :: (scanAux 3 "bc*".toList).2) :=
  ⟨Or.inl rfl, by decide, by decide, by decide, by decide,
   c10_literal_single_marker 2 '*' "bc*".toList (Or.inl rfl) (by decide)
     (by decide) (by decide) (by decide)⟩
